import Mathlib

/-!
Verification of the goreap process supervisor.

The Go sources are shallowly embedded: byte strings become `List Char`,
Go `int` becomes `Int` (with the 64-bit overflow checks of the Go
scanners made explicit), fallible functions return `Option`, and the
concurrent controller is modelled as a step function over an explicit
event trace.  Signal and errno numbers are the Linux amd64 values used
by the program.
-/

/-- Whitespace as matched by a space in a `fmt.Sscanf` format string and
by the leading-space skipping of the scanning verbs: Unicode white space
other than newline (restricted here to the ASCII range that can occur in
a procfs stat file). -/
def isGoSpace (c : Char) : Bool :=
  c == ' ' || c == '\t' || c == '\x0b' || c == '\x0c' || c == '\r'

/-- Whitespace as used by `strings.Fields` (`unicode.IsSpace`), which
does include newline (ASCII range). -/
def isWsp (c : Char) : Bool :=
  c == ' ' || c == '\t' || c == '\n' || c == '\x0b' || c == '\x0c' || c == '\r'

/-- Longest prefix of characters satisfying `p`, paired with the rest. -/
def spanP (p : Char → Bool) : List Char → List Char × List Char
  | [] => ([], [])
  | c :: cs =>
    if p c then (c :: (spanP p cs).1, (spanP p cs).2) else ([], c :: cs)

/-- Value of a run of decimal digit characters. -/
def natOfDigits (ds : List Char) : Nat :=
  ds.foldl (fun a c => 10 * a + (c.toNat - 48)) 0

/-- Read a maximal nonempty run of decimal digits, returning its value
and the rest of the input. -/
def parseDigNat (s : List Char) : Option (Nat × List Char) :=
  match spanP Char.isDigit s with
  | ([], _) => none
  | (ds, r) => some (natOfDigits ds, r)

/-- The sign-and-digits part of the `%d` verb of `fmt.Sscanf` scanning
into a Go `int`: an optional sign, then a nonempty digit run, rejecting
values outside the 64-bit range. -/
def scanIntTail : List Char → Option (Int × List Char)
  | [] => none
  | c :: cs =>
    if c = '-' then
      match parseDigNat cs with
      | none => none
      | some (n, r) => if n ≤ 2 ^ 63 then some (-(n : Int), r) else none
    else if c = '+' then
      match parseDigNat cs with
      | none => none
      | some (n, r) => if n ≤ 2 ^ 63 - 1 then some ((n : Int), r) else none
    else
      match parseDigNat (c :: cs) with
      | none => none
      | some (n, r) => if n ≤ 2 ^ 63 - 1 then some ((n : Int), r) else none

/-- The `%d` verb of `fmt.Sscanf`: discard leading (non-newline) spaces,
then scan the signed number. -/
def scanInt (s : List Char) : Option (Int × List Char) :=
  scanIntTail (spanP isGoSpace s).2

/-- A space in a `fmt.Sscanf` format string: it consumes a maximal run
of (non-newline) spaces and must consume at least one, or find the end
of the input. -/
def spaceRun (s : List Char) : Option (List Char) :=
  match spanP isGoSpace s with
  | (sp, r) => if sp.isEmpty && !r.isEmpty then none else some r

/-- `fmt.Sscanf(stat, "%d ", &pid)` together with the check `n == 1`
performed by `readProcStat`. -/
def sscanfD (stat : List Char) : Option Int :=
  match scanInt stat with
  | none => none
  | some (v, rest) =>
    match spaceRun rest with
    | none => none
    | some _ => some v

/-- `fmt.Sscanf(s, " %c %d", &state, &ppid)` together with the check
`n == 2`: a space run, any single character, a space run, an integer. -/
def sscanfCD (s : List Char) : Option (Char × Int) :=
  match spaceRun s with
  | none => none
  | some s1 =>
    match s1 with
    | [] => none
    | c :: s2 =>
      match spaceRun s2 with
      | none => none
      | some s3 =>
        match scanInt s3 with
        | none => none
        | some (v, _) => some (c, v)

/-- `strings.LastIndexByte`: index of the last occurrence of `c`, if any. -/
def lastIndexByte : List Char → Char → Option Nat
  | [], _ => none
  | x :: xs, c =>
    match lastIndexByte xs c with
    | some i => some (i + 1)
    | none => if x = c then some 0 else none

/-- A row of the process table: `process.PID` with fields `Pid`, `PPid`. -/
structure PID where
  Pid : Int
  PPid : Int
deriving DecidableEq

/-- `process.readProcStat` applied to the contents of a stat file:
scan the leading pid, locate the last `)` byte, then scan the one-byte
state and the parent pid from what follows it. -/
def readProcStat (stat : List Char) : Option PID :=
  match sscanfD stat with
  | none => none
  | some pid =>
    match lastIndexByte stat ')' with
    | none => none
    | some bracket =>
      match sscanfCD (stat.drop (bracket + 1)) with
      | none => none
      | some (_, ppid) => some ⟨pid, ppid⟩

/-- A well-formed stat file body: pid digits, the parenthesised command
name, the state character, the ppid digits, and the remaining fields. -/
def statLine (pd comm : List Char) (c : Char) (qd rest : List Char) : List Char :=
  pd ++ ' ' :: '(' :: (comm ++ ')' :: ' ' :: c :: ' ' :: (qd ++ rest))

/-- `strings.Fields`: the maximal runs of non-whitespace characters. -/
def fields (s : List Char) : List (List Char) :=
  (List.splitOnP isWsp s).filter (fun w => !w.isEmpty)

/-- `strconv.Atoi`: optional sign, then a nonempty all-digit string,
within the 64-bit integer range. -/
def atoi (s : List Char) : Option Int :=
  match s with
  | [] => none
  | c :: cs =>
    if c = '-' then
      if !cs.isEmpty && cs.all Char.isDigit && natOfDigits cs ≤ 2 ^ 63 then
        some (-(natOfDigits cs : Int))
      else none
    else if c = '+' then
      if !cs.isEmpty && cs.all Char.isDigit && natOfDigits cs ≤ 2 ^ 63 - 1 then
        some ((natOfDigits cs : Int))
      else none
    else
      if (c :: cs).all Char.isDigit && natOfDigits (c :: cs) ≤ 2 ^ 63 - 1 then
        some ((natOfDigits (c :: cs) : Int))
      else none

/-- `ProcChildren.readChildren` applied to the contents of one kernel
children file: the slice is preallocated with one zero-initialised slot
per whitespace-separated token, and a token that fails `strconv.Atoi`
is passed over by `continue`, leaving its slot at zero. -/
def readChildren (content : List Char) : List Int :=
  (fields content).map (fun s => (atoi s).getD 0)

/-- `ProcChildren.Children`: concatenation of the per-file results of
`readChildren` over the matched children files. -/
def procChildren (files : List (List Char)) : List Int :=
  (files.map readChildren).flatten

/-- `process.subprocs`: the records whose parent pid is `pid`, in table
order. -/
def subprocs (pids : List PID) (pid : Int) : List PID :=
  pids.filter (fun p => p.PPid == pid)

/-- The `for` loop body of `process.walk` over the pending children
`todo`: a child already in the visited accumulator is skipped, a fresh
one is inserted and then recursed into via `step`. -/
def walkList (step : Int → List Int → List Int) :
    List PID → List Int → List Int
  | [], children => children
  | p :: rest, children =>
    if p.Pid ∈ children then walkList step rest children
    else walkList step rest (step p.Pid (children ++ [p.Pid]))

/-- `process.walk`: depth-first walk of the child edges from `pid`,
inserting each newly seen child pid into the visited accumulator before
recursing into it.  The Go recursion terminates because the visited set
grows on every recursive call; here the nesting depth is paid for by an
explicit fuel argument. -/
def walkF : Nat → List PID → Int → List Int → List Int
  | 0, _, _, children => children
  | f + 1, pids, pid, children =>
    walkList (fun q ch => walkF f pids q ch) (subprocs pids pid) children

/-- `process.descendents`: the pids visited by `walk` starting from
`pid` with an empty visited set.  A fuel of `pids.length + 1` covers the
deepest possible chain of fresh insertions. -/
def descendents (pids : List PID) (pid : Int) : List Int :=
  walkF (pids.length + 1) pids pid []

/-- One parent-child edge of the process table: some record lists `a` as
its parent and `b` as its pid. -/
def childStep (pids : List PID) (a b : Int) : Prop :=
  ∃ p ∈ pids, p.PPid = a ∧ p.Pid = b

/-- Linux signal numbers used by the supervisor (amd64). -/
def sigKill : Int := 9

def sigChld : Int := 17

def sigIo : Int := 29

def sigPipe : Int := 13

def sigUrg : Int := 23

/-- The signals the relay never forwards: the `switch` in `reaper` and
`waitpid` does nothing for `SIGCHLD`, `SIGIO`, `SIGPIPE`, `SIGURG`. -/
def filtered (s : Int) : Bool :=
  s == sigChld || s == sigIo || s == sigPipe || s == sigUrg

/-- `Reap.signalWith`: send `sig` to every pid of the snapshot taken by
`Children()`. -/
def signalWith (children : List Int) (sig : Int) : List (Int × Int) :=
  children.map (fun pid => (pid, sig))

/-- The mutable state of the `reaper` goroutine: the working signal
`r.sig`, and the configured `r.wait` flag (never written). -/
structure RSt where
  sig : Int
  wait : Bool
deriving DecidableEq

/-- One wakeup of the `select` in `reaper`: the deadline timer fires,
the ticker ticks, or an external signal arrives on `sigch`. -/
inductive Event where
  | timer
  | tick
  | sig (s : Int)
deriving DecidableEq

/-- An outbound broadcast of the controller: `cast s` is a broadcast of
the working signal by the wait-gated `signal` closure (the initial kick
or a tick), `fwd s` is the forwarding of an inbound signal through
`signalWith`. -/
inductive ROut where
  | cast (s : Int)
  | fwd (s : Int)
deriving DecidableEq

/-- One iteration of the `select` loop of `reaper`:
deadline → replace the working signal with SIGKILL; inbound signal →
forward it unless filtered, regardless of `wait`; tick → broadcast the
working signal unless `wait` is set. -/
def reaperStep (st : RSt) : Event → RSt × List ROut
  | .timer => ({ st with sig := sigKill }, [])
  | .sig s => (st, if filtered s then [] else [.fwd s])
  | .tick => (st, if st.wait then [] else [.cast st.sig])

/-- The `reaper` loop run over a trace of wakeups, accumulating the
broadcasts in order. -/
def run (st : RSt) : List Event → RSt × List ROut
  | [] => (st, [])
  | e :: es =>
    ((run (reaperStep st e).1 es).1,
      (reaperStep st e).2 ++ (run (reaperStep st e).1 es).2)

/-- `reaper` in full: the initial wait-gated broadcast of the configured
signal, then the `select` loop. -/
def reaperRun (st : RSt) (evs : List Event) : RSt × List ROut :=
  ((run st evs).1,
    (if st.wait then [] else [ROut.cast st.sig]) ++ (run st evs).2)

/-- What `cmd.Wait()` handed to `Reap.waitpid`: a nil error, an
`exec.ExitError` carrying a `syscall.WaitStatus`, an `exec.ExitError`
whose `Sys()` is not a `WaitStatus`, or some other error. -/
inductive WaitMsg where
  | ok
  | exit (ws : Nat)
  | badSys
  | other
deriving DecidableEq

/-- `syscall.WaitStatus.Signaled` on Linux: the low seven bits are
neither zero nor the stopped marker `0x7f`. -/
def signaled (w : Nat) : Bool :=
  (w &&& 127 != 127) && (w &&& 127 != 0)

/-- `syscall.WaitStatus.Exited` on Linux: the low seven bits are zero. -/
def exited (w : Nat) : Bool :=
  w &&& 127 == 0

/-- `syscall.WaitStatus.ExitStatus` on Linux. -/
def exitStatus (w : Nat) : Int :=
  if exited w then ((w >>> 8) &&& 255 : Nat) else -1

/-- `syscall.WaitStatus.Signal` on Linux. -/
def waitSignal (w : Nat) : Int :=
  if signaled w then (w &&& 127 : Nat) else -1

/-- The status computed by `Reap.waitpid` from the result of
`cmd.Wait()`: 0 on a nil error, 128 when the error is not an
`ExitError` or carries no `WaitStatus`, 128 plus the signal number on
signal death, the exit status otherwise. -/
def waitpidInterp : WaitMsg → Int
  | .ok => 0
  | .other => 128
  | .badSys => 128
  | .exit ws => if signaled ws then 128 + waitSignal ws else exitStatus ws

/-- `Reap.execv`: 127 when `cmd.Start()` fails, otherwise the status
computed by `waitpid`. -/
def execv (spawnFail : Bool) (m : WaitMsg) : Int :=
  if spawnFail then 127 else waitpidInterp m

/-- One wakeup of the `select` in `Reap.waitpid`: an inbound signal or
the message from the `cmd.Wait()` goroutine. -/
inductive WEvent where
  | sig (s : Int)
  | wait (m : WaitMsg)
deriving DecidableEq

/-- The `waitpid` loop over a trace of wakeups: inbound signals are
forwarded through the filter until the wait message arrives, which ends
the loop with its interpreted status. -/
def waitpidRun : List WEvent → Option Int × List Int
  | [] => (none, [])
  | .sig s :: rest =>
    ((waitpidRun rest).1, (if filtered s then [] else [s]) ++ (waitpidRun rest).2)
  | .wait m :: _ => (some (waitpidInterp m), [])

/-- Linux errno values seen by the zombie-harvest loop. -/
def eintr : Int := 4

def echild : Int := 10

/-- The `Reap` harvest loop over the successive results of
`syscall.Wait4` (`none` is a nil error, `some e` the errno): loop on
success or `EINTR`, return nil (`some none`) on `ECHILD`, return any
other error (`some (some e)`) unchanged.  `none` means the loop is
still running when the given results are exhausted. -/
def reapWait : List (Option Int) → Option (Option Int)
  | [] => none
  | r :: rest =>
    match r with
    | none => reapWait rest
    | some e =>
      if e = eintr then reapWait rest
      else if e = echild then some none
      else some (some e)

/-- `Reap.Supervise`: run `Exec`, then `Reap`; a `Reap` error takes
precedence with status 111, otherwise the `Exec` result is returned
unchanged.  Errors are represented by an `Option Int` token. -/
def Supervise (execStatus : Int) (execErr : Option Int) (reapErr : Option Int) :
    Int × Option Int :=
  match reapErr with
  | some e => (111, some e)
  | none => (execStatus, execErr)

/-- `maxInt64`, the deadline used for a zero configured deadline. -/
def maxInt64 : Int := 2 ^ 63 - 1

/-- One second in the nanosecond units of `time.Duration`. -/
def second : Int := 1000000000

/-- The configuration fields of `reap.Reap` set by `New` and its
options.  The log sink is an optional callback: `none` models a nil Go
function value. -/
structure Reap where
  sig : Int
  disableSetuid : Bool
  wait : Bool
  deadline : Int
  delay : Int
  log : Option (Int → Unit)

/-- The option constructors of package `reap`. -/
inductive ROpt where
  | withDeadline (t : Int)
  | withDelay (t : Int)
  | withDisableSetuid (b : Bool)
  | withLog (f : Option (Int → Unit))
  | withSignal (n : Int)
  | withWait (b : Bool)

/-- Application of one option, as in `WithDeadline`, `WithDelay`,
`WithDisableSetuid`, `WithLog`, `WithSignal`, `WithWait`: a zero
deadline becomes `maxInt64`, a zero delay becomes one nanosecond, and a
nil log function is replaced by a no-op. -/
def applyOpt (r : Reap) : ROpt → Reap
  | .withDeadline t => if t = 0 then { r with deadline := maxInt64 } else { r with deadline := t }
  | .withDelay t => if t = 0 then { r with delay := 1 } else { r with delay := t }
  | .withDisableSetuid b => { r with disableSetuid := b }
  | .withLog f =>
    match f with
    | none => { r with log := some (fun _ => ()) }
    | some g => { r with log := some g }
  | .withSignal n => { r with sig := n }
  | .withWait b => { r with wait := b }

/-- `reap.New`: the defaults (signal 15, delay 1s, deadline 60s, no-op
log), then the options in order. -/
def New (opts : List ROpt) : Reap :=
  opts.foldl applyOpt
    { sig := 15, disableSetuid := false, wait := false,
      deadline := 60 * second, delay := second, log := some (fun _ => ()) }

theorem walkList_sound (pids : List PID) (step : Int → List Int → List Int)
    (hstep : ∀ q ch x, x ∈ step q ch →
      x ∈ ch ∨ Relation.TransGen (childStep pids) q x) :
    ∀ (todo : List PID) (children : List Int) (pid : Int),
      (∀ p ∈ todo, childStep pids pid p.Pid) →
      ∀ x, x ∈ walkList step todo children →
        x ∈ children ∨ Relation.TransGen (childStep pids) pid x := by
  intro todo
  induction todo with
  | nil =>
    intro children pid _ x hx
    exact Or.inl (by simpa [walkList] using hx)
  | cons p rest ih =>
    intro children pid h x hx
    rw [walkList] at hx
    by_cases hmem : p.Pid ∈ children
    · rw [if_pos hmem] at hx
      exact ih children pid (fun q hq => h q (List.mem_cons_of_mem _ hq)) x hx
    · rw [if_neg hmem] at hx
      rcases ih (step p.Pid (children ++ [p.Pid])) pid
          (fun q hq => h q (List.mem_cons_of_mem _ hq)) x hx with hin | hreach
      · rcases hstep p.Pid _ x hin with hin2 | hreach2
        · rcases List.mem_append.mp hin2 with hc | hp
          · exact Or.inl hc
          · have hx_eq : x = p.Pid := by simpa using hp
            subst hx_eq
            exact Or.inr (Relation.TransGen.single (h p (List.mem_cons_self _ _)))
        · exact Or.inr (Relation.TransGen.head (h p (List.mem_cons_self _ _)) hreach2)
      · exact Or.inr hreach

theorem walkF_sound :
    ∀ (fuel : Nat) (pids : List PID) (pid : Int) (children : List Int) (x : Int),
      x ∈ walkF fuel pids pid children →
        x ∈ children ∨ Relation.TransGen (childStep pids) pid x := by
  intro fuel
  induction fuel with
  | zero =>
    intro pids pid children x hx
    exact Or.inl (by simpa [walkF] using hx)
  | succ f ih =>
    intro pids pid children x hx
    rw [walkF] at hx
    refine walkList_sound pids _ (fun q ch y hy => ih pids q ch y hy)
      (subprocs pids pid) children pid ?_ x hx
    intro p hp
    have hf := List.mem_filter.mp hp
    exact ⟨p, hf.1, by simpa using hf.2, rfl⟩

/-- C3 counterexample: on the cyclic one-record table whose record lists
pid 5 as its own parent, `descendents` of root 5 contains the root
itself, so the claim is false for tables whose parent edges form a cycle
through the root. -/
theorem descendents_cycle_contains_root :
    (5 : Int) ∈ descendents [⟨5, 5⟩] 5 := by decide

/-- C3 (amended): for every process table in which the root is not
reachable from itself along parent-child edges (in particular every
acyclic table, hence every real Unix process table), the computed
descendant set of the root never contains the root, and consequently no
broadcast built by `signalWith` from it targets the root pid. -/
theorem descendents_no_self (pids : List PID) (root : Int)
    (h : ¬ Relation.TransGen (childStep pids) root root) :
    root ∉ descendents pids root ∧
    ∀ s q, (q, s) ∈ signalWith (descendents pids root) s → q ≠ root := by
  have hmain : root ∉ descendents pids root := by
    intro hmem
    rcases walkF_sound (pids.length + 1) pids root [] root hmem with h0 | hr
    · simp at h0
    · exact h hr
  refine ⟨hmain, ?_⟩
  intro s q hq hqr
  subst hqr
  rcases List.mem_map.mp hq with ⟨p, hp, hpe⟩
  have : p = q := congrArg Prod.fst hpe
  subst this
  exact hmain hp

theorem descendents_no_self_witness :
    (5 : Int) ∉ descendents [⟨6, 5⟩] 5 ∧
    ∀ s q, (q, s) ∈ signalWith (descendents [⟨6, 5⟩] 5) s → q ≠ 5 := by
  refine descendents_no_self [⟨6, 5⟩] 5 ?_
  intro h
  have hlast : ∀ b : Int, Relation.TransGen (childStep [⟨6, 5⟩]) 5 b → b = 6 := by
    intro b hb
    induction hb with
    | single hs =>
      rcases hs with ⟨p, hp, _, h2⟩
      simp only [List.mem_singleton] at hp
      subst hp
      exact h2.symm
    | tail _ hs _ =>
      rcases hs with ⟨p, hp, _, h2⟩
      simp only [List.mem_singleton] at hp
      subst hp
      exact h2.symm
  have h56 := hlast 5 h
  norm_num at h56

/-- C2: the kernel-children reader does not skip a non-integer token; it
leaves the zero-initialised slot in the preallocated slice, so the
returned list gains a zero-valued pid.  Evaluating the code on the
children file content `123 abc 456` shows the divergence from the claim
(which requires `[123, 456]`). -/
theorem readChildren_zero_slot :
    readChildren ("123 abc 456".data) = [123, 0, 456] ∧
    readChildren ("123 abc 456".data) ≠ [123, 456] ∧
    (0 : Int) ∈ procChildren ["123 abc 456".data] := by decide

/-- C4: the zombie-harvest loop continues on a nil error and on EINTR,
returns success exactly when `Wait4` fails with ECHILD, and returns any
other error unchanged. -/
theorem reap_loop_classifies (rest rs : List (Option Int)) (e x : Int)
    (h1 : e ≠ eintr) (h2 : e ≠ echild) :
    reapWait (none :: rest) = reapWait rest ∧
    reapWait (some eintr :: rest) = reapWait rest ∧
    reapWait (some echild :: rest) = some none ∧
    reapWait (some e :: rest) = some (some e) ∧
    (reapWait rs = some none → some echild ∈ rs) ∧
    (reapWait rs = some (some x) → some x ∈ rs) := by
  refine ⟨by simp [reapWait], by simp [reapWait], ?_, ?_, ?_, ?_⟩
  · simp [reapWait, eintr, echild]
  · simp [reapWait, h1, h2]
  · induction rs with
    | nil => simp [reapWait]
    | cons r rs ih =>
      intro hr
      cases r with
      | none => exact List.mem_cons_of_mem _ (ih (by simpa [reapWait] using hr))
      | some v =>
        by_cases hv1 : v = eintr
        · subst hv1
          exact List.mem_cons_of_mem _ (ih (by simpa [reapWait] using hr))
        · by_cases hv2 : v = echild
          · subst hv2
            exact List.mem_cons_self _ _
          · simp [reapWait, hv1, hv2] at hr
  · induction rs with
    | nil => simp [reapWait]
    | cons r rs ih =>
      intro hr
      cases r with
      | none => exact List.mem_cons_of_mem _ (ih (by simpa [reapWait] using hr))
      | some v =>
        by_cases hv1 : v = eintr
        · subst hv1
          exact List.mem_cons_of_mem _ (ih (by simpa [reapWait] using hr))
        · by_cases hv2 : v = echild
          · subst hv2
            simp [reapWait, eintr, echild] at hr
          · simp only [reapWait, if_neg hv1, if_neg hv2, Option.some.injEq] at hr
            subst hr
            exact List.mem_cons_self _ _

theorem reap_loop_classifies_witness :
    reapWait [none] = reapWait [] ∧
    reapWait [some eintr] = reapWait [] ∧
    reapWait [some echild] = some none ∧
    reapWait [some 5] = some (some 5) ∧
    (reapWait [some echild] = some none → some echild ∈ [some echild]) ∧
    (reapWait [some echild] = some (some 7) → some 7 ∈ [some echild]) :=
  reap_loop_classifies [] [some echild] 5 7 (by decide) (by decide)

theorem and_127_eq_mod (m : Nat) : m &&& 127 = m % 128 := by
  have h7 : (127 : Nat) = 2 ^ 7 - 1 := by norm_num
  rw [h7, Nat.and_pow_two_sub_one_eq_mod]

theorem and_255_eq_mod (m : Nat) : m &&& 255 = m % 256 := by
  have h8 : (255 : Nat) = 2 ^ 8 - 1 := by norm_num
  rw [h8, Nat.and_pow_two_sub_one_eq_mod]

/-- C5: the foreground runner maps every outcome to the documented exit
status: 127 when spawning fails, 0 on a clean exit, 128 + N when the
child died from signal N (with or without the core-dump bit), the
child's own code on a normal exit, and 128 when the wait result carries
no interpretable status. -/
theorem exit_status_spec (m : WaitMsg) (n c : Nat)
    (hn0 : 0 < n) (hn : n < 127) (hc : c ≤ 255) :
    execv true m = 127 ∧
    execv false WaitMsg.ok = 0 ∧
    waitpidInterp (WaitMsg.exit n) = 128 + (n : Int) ∧
    waitpidInterp (WaitMsg.exit (n + 128)) = 128 + (n : Int) ∧
    waitpidInterp (WaitMsg.exit (c <<< 8)) = (c : Int) ∧
    waitpidInterp WaitMsg.badSys = 128 ∧
    waitpidInterp WaitMsg.other = 128 := by
  have hnmod : n % 128 = n := Nat.mod_eq_of_lt (by omega)
  have hnmod2 : (n + 128) % 128 = n := by omega
  have hsig : signaled n = true := by
    simp only [signaled, and_127_eq_mod, hnmod]
    simp only [Bool.and_eq_true, bne_iff_ne, ne_eq]
    omega
  have hsig2 : signaled (n + 128) = true := by
    simp only [signaled, and_127_eq_mod, hnmod2]
    simp only [Bool.and_eq_true, bne_iff_ne, ne_eq]
    omega
  have hshl : c <<< 8 = c * 256 := by
    rw [Nat.shiftLeft_eq]
  have hcmod : (c * 256) % 128 = 0 := by omega
  have hsig3 : signaled (c <<< 8) = false := by
    simp only [signaled, hshl, and_127_eq_mod, hcmod]
    simp
  have hex : exited (c <<< 8) = true := by
    simp only [exited, hshl, and_127_eq_mod, hcmod]
    simp
  refine ⟨by simp [execv], by simp [execv, waitpidInterp], ?_, ?_, ?_, rfl, rfl⟩
  · simp only [waitpidInterp, hsig, if_true, waitSignal, and_127_eq_mod, hnmod]
  · simp only [waitpidInterp, hsig2, if_true, waitSignal, and_127_eq_mod, hnmod2]
  · simp only [waitpidInterp, hsig3, Bool.false_eq_true, if_false, exitStatus, hex,
      if_true]
    have : (c <<< 8) >>> 8 = c := by
      rw [hshl, Nat.shiftRight_eq_div_pow]
      norm_num
    rw [this, and_255_eq_mod, Nat.mod_eq_of_lt (by omega)]

theorem exit_status_spec_witness :
    execv true WaitMsg.other = 127 ∧
    execv false WaitMsg.ok = 0 ∧
    waitpidInterp (WaitMsg.exit 15) = 128 + ((15 : Nat) : Int) ∧
    waitpidInterp (WaitMsg.exit (15 + 128)) = 128 + ((15 : Nat) : Int) ∧
    waitpidInterp (WaitMsg.exit ((3 : Nat) <<< 8)) = ((3 : Nat) : Int) ∧
    waitpidInterp WaitMsg.badSys = 128 ∧
    waitpidInterp WaitMsg.other = 128 :=
  exit_status_spec WaitMsg.other 15 3 (by decide) (by decide) (by decide)

/-- C9: `Supervise` returns 111 paired with the `Reap` error whenever
the zombie-harvest phase fails, discarding the `Exec` status and error;
when `Reap` succeeds it returns the `Exec` result unchanged. -/
theorem supervise_spec (s : Int) (ee : Option Int) (re : Int) :
    Supervise s ee (some re) = (111, some re) ∧
    Supervise s ee none = (s, ee) :=
  ⟨rfl, rfl⟩

/-- C10: under every option list, the configured log sink is a callable
function: `New` installs a no-op by default and `WithLog` replaces a nil
argument with a no-op, so the stored sink is never nil. -/
theorem log_never_nil (opts : List ROpt) : ((New opts).log).isSome = true := by
  suffices h : ∀ r : Reap, r.log.isSome = true →
      (opts.foldl applyOpt r).log.isSome = true by
    exact h _ rfl
  induction opts with
  | nil =>
    intro r h
    simpa using h
  | cons o os ih =>
    intro r h
    rw [List.foldl_cons]
    apply ih
    cases o with
    | withDeadline t =>
      by_cases ht : t = 0 <;> simp [applyOpt, ht] <;> exact h
    | withDelay t =>
      by_cases ht : t = 0 <;> simp [applyOpt, ht] <;> exact h
    | withDisableSetuid b => simpa [applyOpt] using h
    | withLog f => cases f <;> simp [applyOpt]
    | withSignal nn => simpa [applyOpt] using h
    | withWait b => simpa [applyOpt] using h

theorem run_append (a b : List Event) (st : RSt) :
    run st (a ++ b) =
      ((run (run st a).1 b).1, (run st a).2 ++ (run (run st a).1 b).2) := by
  induction a generalizing st with
  | nil => simp [run]
  | cons e es ih => simp [run, ih, List.append_assoc]

theorem run_sig_inv (evs : List Event) :
    ∀ st : RSt, st.sig = sigKill →
      (run st evs).1.sig = sigKill ∧
      ∀ s, ROut.cast s ∈ (run st evs).2 → s = sigKill := by
  induction evs with
  | nil =>
    intro st h
    exact ⟨h, by simp [run]⟩
  | cons e es ih =>
    intro st h
    cases e with
    | timer =>
      have hrec := ih { st with sig := sigKill } rfl
      refine ⟨by simpa [run, reaperStep] using hrec.1, ?_⟩
      intro s hs
      simp only [run, reaperStep, List.nil_append] at hs
      exact hrec.2 s hs
    | sig s0 =>
      have hrec := ih st h
      refine ⟨by simpa [run, reaperStep] using hrec.1, ?_⟩
      intro s hs
      simp only [run, reaperStep] at hs
      rcases List.mem_append.mp hs with hl | hr
      · by_cases hf : filtered s0 <;> simp [hf] at hl
      · exact hrec.2 s hr
    | tick =>
      have hrec := ih st h
      refine ⟨by simpa [run, reaperStep] using hrec.1, ?_⟩
      intro s hs
      simp only [run, reaperStep] at hs
      rcases List.mem_append.mp hs with hl | hr
      · by_cases hw : st.wait <;> simp [hw] at hl
        rcases hl with ⟨rfl⟩
        exact h
      · exact hrec.2 s hr

/-- C6: once the deadline timer fires, the working signal becomes
SIGKILL, every later tick broadcast carries SIGKILL, and the working
signal stays SIGKILL for the remainder of the run, whatever the
configured signal and the later events. -/
theorem deadline_escalates (sig0 : Int) (w : Bool) (pre post : List Event)
    (s : Int)
    (h : ROut.cast s ∈ (run (run ⟨sig0, w⟩ (pre ++ [Event.timer])).1 post).2) :
    s = sigKill ∧
    (run (run ⟨sig0, w⟩ (pre ++ [Event.timer])).1 post).1.sig = sigKill := by
  have h9 : (run ⟨sig0, w⟩ (pre ++ [Event.timer])).1.sig = sigKill := by
    rw [run_append]
    simp [run, reaperStep]
  have inv := run_sig_inv post (run ⟨sig0, w⟩ (pre ++ [Event.timer])).1 h9
  exact ⟨inv.2 s h, inv.1⟩

theorem deadline_escalates_witness :
    (9 : Int) = sigKill ∧
    (run (run ⟨15, false⟩ ([] ++ [Event.timer])).1 [Event.tick]).1.sig = sigKill :=
  deadline_escalates 15 false [] [Event.tick] 9 (by decide)

theorem run_wait_no_cast (evs : List Event) :
    ∀ st : RSt, st.wait = true → ∀ t, ROut.cast t ∉ (run st evs).2 := by
  induction evs with
  | nil =>
    intro st _ t
    simp [run]
  | cons e es ih =>
    intro st hw t hmem
    cases e with
    | timer =>
      simp only [run, reaperStep, List.nil_append] at hmem
      exact ih { st with sig := sigKill } hw t hmem
    | sig s0 =>
      simp only [run, reaperStep] at hmem
      rcases List.mem_append.mp hmem with hl | hr
      · by_cases hf : filtered s0 <;> simp [hf] at hl
      · exact ih st hw t hr
    | tick =>
      simp only [run, reaperStep, hw] at hmem
      exact ih st hw t (by simpa using hmem)

theorem run_fwd_of_mem (evs : List Event) :
    ∀ (st : RSt) (s : Int), filtered s = false → Event.sig s ∈ evs →
      ROut.fwd s ∈ (run st evs).2 := by
  induction evs with
  | nil =>
    intro st s _ hmem
    simp at hmem
  | cons e es ih =>
    intro st s hf hmem
    rcases List.mem_cons.mp hmem with he | he
    · subst he
      simp [run, reaperStep, hf]
    · simp only [run, reaperStep]
      exact List.mem_append.mpr (Or.inr (ih _ s hf he))

/-- C7: with the wait option set, the controller emits no broadcast from
its initial kick or from any tick, while every unfiltered inbound signal
present in the trace is still forwarded to the descendant set. -/
theorem wait_mode_spec (sig0 : Int) (evs : List Event) (s t : Int)
    (hs : filtered s = false) (hmem : Event.sig s ∈ evs) :
    ROut.cast t ∉ (reaperRun ⟨sig0, true⟩ evs).2 ∧
    ROut.fwd s ∈ (reaperRun ⟨sig0, true⟩ evs).2 := by
  constructor
  · intro hmem2
    simp only [reaperRun, if_pos, List.nil_append] at hmem2
    exact run_wait_no_cast evs ⟨sig0, true⟩ rfl t (by simpa using hmem2)
  · simp only [reaperRun, if_pos, List.nil_append]
    simpa using run_fwd_of_mem evs ⟨sig0, true⟩ s hs hmem

theorem wait_mode_spec_witness :
    ROut.cast 15 ∉ (reaperRun ⟨15, true⟩ [Event.sig 2, Event.tick]).2 ∧
    ROut.fwd 2 ∈ (reaperRun ⟨15, true⟩ [Event.sig 2, Event.tick]).2 :=
  wait_mode_spec 15 [Event.sig 2, Event.tick] 2 15 (by decide) (by decide)

theorem run_no_fwd_filtered (evs : List Event) :
    ∀ (st : RSt) (s : Int), filtered s = true →
      ROut.fwd s ∉ (run st evs).2 := by
  induction evs with
  | nil =>
    intro st s _
    simp [run]
  | cons e es ih =>
    intro st s hf hmem
    cases e with
    | timer =>
      simp only [run, reaperStep, List.nil_append] at hmem
      exact ih _ s hf hmem
    | sig s0 =>
      simp only [run, reaperStep] at hmem
      rcases List.mem_append.mp hmem with hl | hr
      · by_cases hf0 : filtered s0 <;> simp [hf0] at hl
        rcases hl with ⟨rfl⟩
        rw [hf] at hf0
        exact hf0 rfl
      · exact ih _ s hf hr
    | tick =>
      simp only [run, reaperStep] at hmem
      rcases List.mem_append.mp hmem with hl | hr
      · by_cases hw : st.wait <;> simp [hw] at hl
      · exact ih _ s hf hr

theorem waitpid_no_filtered (wevs : List WEvent) :
    ∀ s : Int, filtered s = true → s ∉ (waitpidRun wevs).2 := by
  induction wevs with
  | nil =>
    intro s _
    simp [waitpidRun]
  | cons e rest ih =>
    intro s hf hmem
    cases e with
    | sig s0 =>
      simp only [waitpidRun] at hmem
      rcases List.mem_append.mp hmem with hl | hr
      · by_cases hf0 : filtered s0 <;> simp [hf0] at hl
        subst hl
        rw [hf] at hf0
        exact hf0 rfl
      · exact ih s hf hr
    | wait m =>
      simp [waitpidRun] at hmem

/-- C8: the relay never forwards the child-state-change, async-I/O,
broken-pipe or urgent-data signals, in the reaping controller as in the
foreground wait loop; every other received signal is forwarded, and a
`signalWith` broadcast sends exactly that signal to each pid of the
snapshot it was given. -/
theorem relay_filter_spec (sig0 : Int) (w : Bool) (evs : List Event)
    (wevs rest : List WEvent) (s : Int) (ch : List Int) (q t : Int) :
    (filtered s = true →
      ROut.fwd s ∉ (reaperRun ⟨sig0, w⟩ evs).2 ∧ s ∉ (waitpidRun wevs).2) ∧
    (filtered s = false →
      (Event.sig s ∈ evs → ROut.fwd s ∈ (reaperRun ⟨sig0, w⟩ evs).2) ∧
      (waitpidRun (WEvent.sig s :: rest)).2 = s :: (waitpidRun rest).2) ∧
    ((q, t) ∈ signalWith ch s ↔ q ∈ ch ∧ t = s) := by
  refine ⟨?_, ?_, ?_⟩
  · intro hf
    constructor
    · intro hmem
      simp only [reaperRun] at hmem
      rcases List.mem_append.mp hmem with hl | hr
      · by_cases hw : w <;> simp [hw] at hl
      · exact run_no_fwd_filtered evs ⟨sig0, w⟩ s hf hr
    · exact waitpid_no_filtered wevs s hf
  · intro hf
    constructor
    · intro hmem
      simp only [reaperRun]
      exact List.mem_append.mpr (Or.inr (run_fwd_of_mem evs ⟨sig0, w⟩ s hf hmem))
    · simp [waitpidRun, hf]
  · constructor
    · intro hmem
      rcases List.mem_map.mp hmem with ⟨p, hp, hpe⟩
      refine ⟨?_, ?_⟩
      · have : p = q := congrArg Prod.fst hpe
        exact this ▸ hp
      · exact (congrArg Prod.snd hpe).symm
    · rintro ⟨hq, rfl⟩
      exact List.mem_map.mpr ⟨q, hq, rfl⟩

theorem relay_filter_spec_witness :
    (ROut.fwd 17 ∉ (reaperRun ⟨15, false⟩ [Event.sig 17]).2 ∧
      (17 : Int) ∉ (waitpidRun [WEvent.sig 17]).2) ∧
    ROut.fwd 2 ∈ (reaperRun ⟨15, false⟩ [Event.sig 2]).2 ∧
    (waitpidRun [WEvent.sig 2]).2 = 2 :: (waitpidRun []).2 ∧
    ((3, 2) ∈ signalWith [3, 4] 2 ↔ (3 : Int) ∈ [(3 : Int), 4] ∧ (2 : Int) = 2) :=
  ⟨(relay_filter_spec 15 false [Event.sig 17] [WEvent.sig 17] [] 17 [3, 4] 3 2).1
      (by decide),
    ((relay_filter_spec 15 false [Event.sig 2] [] [] 2 [3, 4] 3 2).2.1
      (by decide)).1 (by decide),
    ((relay_filter_spec 15 false [Event.sig 2] [] [] 2 [3, 4] 3 2).2.1
      (by decide)).2,
    (relay_filter_spec 15 false [Event.sig 2] [] [] 2 [3, 4] 3 2).2.2⟩

theorem spanP_eq_of (p : Char → Bool) (ds t : List Char)
    (h1 : ∀ d ∈ ds, p d = true)
    (h2 : ∀ x, t.head? = some x → p x = false) :
    spanP p (ds ++ t) = (ds, t) := by
  induction ds with
  | nil =>
    cases t with
    | nil => simp [spanP]
    | cons x xs => simp [spanP, h2 x rfl]
  | cons d ds ih =>
    have hd := h1 d (List.mem_cons_self _ _)
    have hrec := ih (fun q hq => h1 q (List.mem_cons_of_mem _ hq))
    simp [spanP, hd, hrec]

theorem isGoSpace_eq_false_of_isDigit (d : Char) (h : d.isDigit = true) :
    isGoSpace d = false := by
  by_contra hcon
  rw [Bool.not_eq_false] at hcon
  simp only [isGoSpace, Bool.or_eq_true, beq_iff_eq] at hcon
  rcases hcon with ((((rfl | rfl) | rfl) | rfl) | rfl) <;> exact absurd h (by decide)

theorem not_sign_of_isDigit (d : Char) (h : d.isDigit = true) :
    d ≠ '-' ∧ d ≠ '+' ∧ d ≠ ')' := by
  refine ⟨?_, ?_, ?_⟩ <;> intro hd <;> subst hd <;> exact absurd h (by decide)

theorem scanInt_digits (pd t : List Char) (hne : pd ≠ [])
    (hdig : ∀ d ∈ pd, d.isDigit = true)
    (hb : natOfDigits pd < 2 ^ 63)
    (ht : ∀ x, t.head? = some x → x.isDigit = false) :
    scanInt (pd ++ t) = some ((natOfDigits pd : Int), t) := by
  obtain ⟨d, pd', rfl⟩ := List.exists_cons_of_ne_nil hne
  have hd := hdig d (List.mem_cons_self _ _)
  have hspan0 : spanP isGoSpace ([] ++ ((d :: pd') ++ t)) = ([], (d :: pd') ++ t) := by
    refine spanP_eq_of isGoSpace [] ((d :: pd') ++ t) (by simp) ?_
    intro x hx
    simp only [List.cons_append, List.head?_cons, Option.some.injEq] at hx
    subst hx
    exact isGoSpace_eq_false_of_isDigit d hd
  rw [List.nil_append] at hspan0
  have hsigns := not_sign_of_isDigit d hd
  have hspan1 : spanP Char.isDigit ((d :: pd') ++ t) = (d :: pd', t) :=
    spanP_eq_of Char.isDigit (d :: pd') t hdig ht
  have hdig1 : parseDigNat ((d :: pd') ++ t) = some (natOfDigits (d :: pd'), t) := by
    rw [parseDigNat, hspan1]
  rw [scanInt, hspan0, List.cons_append, scanIntTail, if_neg hsigns.1,
    if_neg hsigns.2.1, ← List.cons_append, hdig1]
  exact if_pos (by omega)

theorem spaceRun_space (u : List Char)
    (hu : ∀ x, u.head? = some x → isGoSpace x = false) :
    spaceRun (' ' :: u) = some u := by
  have hspan : spanP isGoSpace ([' '] ++ u) = ([' '], u) := by
    refine spanP_eq_of isGoSpace [' '] u ?_ hu
    intro d hd
    simp only [List.mem_singleton] at hd
    subst hd
    decide
  rw [List.singleton_append] at hspan
  rw [spaceRun, hspan]
  simp

theorem lastIndexByte_of_not_mem (s : List Char) (c : Char) (h : c ∉ s) :
    lastIndexByte s c = none := by
  induction s with
  | nil => rfl
  | cons x xs ih =>
    simp only [List.mem_cons, not_or] at h
    rw [lastIndexByte, ih h.2]
    exact if_neg (fun he => h.1 he.symm)

theorem lastIndexByte_append (a b : List Char) (c : Char) (h : c ∉ b) :
    lastIndexByte (a ++ c :: b) c = some a.length := by
  induction a with
  | nil =>
    rw [List.nil_append, lastIndexByte, lastIndexByte_of_not_mem b c h]
    simp
  | cons x xs ih =>
    rw [List.cons_append, lastIndexByte, ih]
    simp

theorem drop_append_cons (a b : List Char) (c : Char) :
    (a ++ c :: b).drop (a.length + 1) = b := by
  have h1 : a ++ c :: b = (a ++ [c]) ++ b := by simp
  have h2 : a.length + 1 = (a ++ [c]).length := by simp
  rw [h1, h2, List.drop_left]

/-- C1: for every well-formed stat file body whose command name is an
arbitrary byte sequence — spaces, parentheses and newlines included —
`readProcStat` succeeds, the extracted pid is the value of the leading
digit run (the integer before the first whitespace), and the extracted
parent pid is the value of the integer that follows the single state
character after the last `)` byte of the content. -/
theorem readProcStat_wellformed (pd comm : List Char) (c : Char)
    (qd rest : List Char)
    (hpd : pd ≠ []) (hpdd : ∀ d ∈ pd, d.isDigit = true)
    (hpb : natOfDigits pd < 2 ^ 63)
    (hqd : qd ≠ []) (hqdd : ∀ d ∈ qd, d.isDigit = true)
    (hqb : natOfDigits qd < 2 ^ 63)
    (hc1 : isGoSpace c = false) (hc2 : c ≠ ')')
    (hr1 : ')' ∉ rest)
    (hr2 : ∀ x ∈ rest.take 1, x.isDigit = false) :
    readProcStat (statLine pd comm c qd rest) =
      some ⟨(natOfDigits pd : Int), (natOfDigits qd : Int)⟩ := by
  have hrhead : ∀ x, rest.head? = some x → x.isDigit = false := by
    intro x hx
    cases rest with
    | nil => simp at hx
    | cons y ys =>
      have hy := hr2 y (by simp)
      simp only [List.head?_cons, Option.some.injEq] at hx
      rw [← hx]
      exact hy
  have hA : statLine pd comm c qd rest =
      (pd ++ ' ' :: '(' :: comm) ++ ')' :: ' ' :: c :: ' ' :: (qd ++ rest) := by
    simp [statLine]
  have hBnp : ')' ∉ ' ' :: c :: ' ' :: (qd ++ rest) := by
    intro hmem
    rcases List.mem_cons.mp hmem with h1 | hmem
    · exact absurd h1 (by decide)
    rcases List.mem_cons.mp hmem with h1 | hmem
    · exact hc2 h1.symm
    rcases List.mem_cons.mp hmem with h1 | hmem
    · exact absurd h1 (by decide)
    rcases List.mem_append.mp hmem with h1 | h1
    · exact absurd (hqdd ')' h1) (by decide)
    · exact hr1 h1
  have hpid : sscanfD (statLine pd comm c qd rest) =
      some ((natOfDigits pd : Int)) := by
    have h1 : scanInt (statLine pd comm c qd rest) =
        some ((natOfDigits pd : Int),
          ' ' :: '(' :: (comm ++ ')' :: ' ' :: c :: ' ' :: (qd ++ rest))) := by
      rw [statLine]
      refine scanInt_digits pd _ hpd hpdd hpb ?_
      intro x hx
      simp only [List.head?_cons, Option.some.injEq] at hx
      subst hx
      decide
    have h2b : spaceRun
        (' ' :: '(' :: (comm ++ ')' :: ' ' :: c :: ' ' :: (qd ++ rest))) =
        some ('(' :: (comm ++ ')' :: ' ' :: c :: ' ' :: (qd ++ rest))) := by
      refine spaceRun_space _ ?_
      intro x hx
      simp only [List.head?_cons, Option.some.injEq] at hx
      subst hx
      decide
    simp only [sscanfD, h1, h2b]
  have hlast : lastIndexByte (statLine pd comm c qd rest) ')' =
      some ((pd ++ ' ' :: '(' :: comm).length) := by
    rw [hA]
    exact lastIndexByte_append _ _ _ hBnp
  have hdrop : (statLine pd comm c qd rest).drop
      ((pd ++ ' ' :: '(' :: comm).length + 1) =
      ' ' :: c :: ' ' :: (qd ++ rest) := by
    rw [hA]
    exact drop_append_cons _ _ _
  have htail : sscanfCD (' ' :: c :: ' ' :: (qd ++ rest)) =
      some (c, (natOfDigits qd : Int)) := by
    have hs1 : spaceRun (' ' :: c :: ' ' :: (qd ++ rest)) =
        some (c :: ' ' :: (qd ++ rest)) := by
      refine spaceRun_space _ ?_
      intro x hx
      simp only [List.head?_cons, Option.some.injEq] at hx
      subst hx
      exact hc1
    have hs2 : spaceRun (' ' :: (qd ++ rest)) = some (qd ++ rest) := by
      refine spaceRun_space _ ?_
      intro x hx
      obtain ⟨e, qd', rfl⟩ := List.exists_cons_of_ne_nil hqd
      simp only [List.cons_append, List.head?_cons, Option.some.injEq] at hx
      subst hx
      exact isGoSpace_eq_false_of_isDigit e (hqdd e (List.mem_cons_self _ _))
    have hs3 : scanInt (qd ++ rest) = some ((natOfDigits qd : Int), rest) :=
      scanInt_digits qd rest hqd hqdd hqb hrhead
    simp only [sscanfCD, hs1, hs2, hs3]
  simp only [readProcStat, hpid, hlast, hdrop, htail]

theorem readProcStat_wellformed_witness :
    readProcStat (statLine ("21230".data) ("cat (foo)\nS ".data) 'R'
        ("9985".data) (" 1 2".data)) =
      some ⟨(natOfDigits ("21230".data) : Int),
        (natOfDigits ("9985".data) : Int)⟩ :=
  readProcStat_wellformed ("21230".data) ("cat (foo)\nS ".data) 'R'
    ("9985".data) (" 1 2".data) (by decide) (by decide) (by decide) (by decide)
    (by decide) (by decide) (by decide) (by decide) (by decide) (by decide)
